import Mathlib

/-!
Shallow embedding of the Timing & Segment Synchronization Core of the
apple-music-lyrics repository (three TypeScript source files:
`src/components/AppleMusicLyricsPlayer.tsx`, `src/components/Player/Player.tsx`,
`src/components/Player/VirtualList.tsx`).

Conventions of the embedding:
* JS numbers are modelled as `Int` (millisecond timestamps, indices) or `ℚ`
  (fractional seconds, pixel fractions, audio sample values).  Every numeric
  operation the embedded code performs on these values (comparison, addition,
  multiplication, `Math.floor`, `Math.min`/`Math.max`) is exact on the inputs
  the claims quantify over, so no floating-point rounding is modelled.
* JS strings are modelled as `String` / `List Char`.
* `Array.prototype.sort` with the comparator `(a, b) => key a - key b` is the
  stable ascending sort by `key` (ES2019 requires stability); it is modelled
  by the stable insertion sort `jsSortBy`.
* `TimingCore.ts` and `parsers.ts` are imported by `Player.tsx` but are not
  under `src/`; the definitions embedding them are modelled from the spec and
  say so in their doc comments.  Everything else is translated from the
  source files.
-/

/-- Segment record of the data model (spec §3); `end_ms` may be absent
(`undefined` in JS), hence `Option`.  The optional `words` list is omitted:
no definition below reads it. -/
structure Segment where
  id : String
  start_ms : Int
  end_ms : Option Int
  text : String
deriving DecidableEq, Repr

/-- Default used for out-of-range `getD` reads; the embedded loops never
actually read out of range. -/
def defSeg : Segment := { id := "", start_ms := 0, end_ms := none, text := "" }

/-! ## Stable sort (models `Array.prototype.sort` with a numeric key comparator) -/

/-- Insert `x` after every element whose key is ≤ `key x` (so insertion is
stable: an element equal in key to earlier ones lands after them). -/
def insertSorted {α : Type} {K : Type} [LinearOrder K] (key : α → K) (x : α) :
    List α → List α
  | [] => [x]
  | y :: ys => if key y ≤ key x then y :: insertSorted key x ys else x :: y :: ys

/-- Stable ascending sort by `key`; models the JS calls
`list.sort((a, b) => key a - key b)`. -/
def jsSortBy {α : Type} {K : Type} [LinearOrder K] (key : α → K) (l : List α) :
    List α :=
  l.foldl (fun acc x => insertSorted key x acc) []

/-! ## LRC line scanner

Embeds the regex loop of `parseLRC` (src/components/AppleMusicLyricsPlayer.tsx
lines 26–48): repeated `re.exec` over the line with
`re = /\[(\d{1,2}):(\d{2}(?:\.\d{1,3})?)\]/g`, plus `raw.replace(re, "")` for
the residual text.  For this pattern the backtracking regex semantics reduce
to: at a `[`, the following digit run must have length 1 or 2 and be followed
by `:`, the next digit run must have length exactly 2, an optional `.` must be
followed by a digit run of length 1–3, and then `]` must follow; any position
where this fails is not a match start and the scan advances one character. -/

/-- One matched bracket timestamp: raw minute/second digits plus the optional
fraction digits (`fracLen` = number of fraction digits, 0 when absent). -/
structure RawTs where
  mm : Nat
  ss : Nat
  fracVal : Nat
  fracLen : Nat
deriving DecidableEq, Repr

/-- Decimal value of a digit run (what `parseInt` / `parseFloat` compute on
the captured groups; the captures are all-digit so `NaN` never occurs). -/
def digitsVal (cs : List Char) : Nat :=
  cs.foldl (fun a c => a * 10 + (c.toNat - '0'.toNat)) 0

/-- Try to match `\[(\d{1,2}):(\d{2}(?:\.\d{1,3})?)\]` at the head of the
input; on success return the captured timestamp and the rest of the input. -/
def matchTs : List Char → Option (RawTs × List Char)
  | '[' :: rest =>
    let ds := rest.takeWhile Char.isDigit
    let r1 := rest.dropWhile Char.isDigit
    if ds.length = 1 ∨ ds.length = 2 then
      match r1 with
      | ':' :: r2 =>
        let ss := r2.takeWhile Char.isDigit
        let r3 := r2.dropWhile Char.isDigit
        if ss.length = 2 then
          match r3 with
          | ']' :: r4 => some (⟨digitsVal ds, digitsVal ss, 0, 0⟩, r4)
          | '.' :: r4 =>
            let fs := r4.takeWhile Char.isDigit
            let r5 := r4.dropWhile Char.isDigit
            if fs.length = 1 ∨ fs.length = 2 ∨ fs.length = 3 then
              match r5 with
              | ']' :: r6 => some (⟨digitsVal ds, digitsVal ss, digitsVal fs, fs.length⟩, r6)
              | _ => none
            else none
          | _ => none
        else none
      | _ => none
    else none
  | _ => none

/-- The `while ((m = re.exec(raw)) !== null)` loop together with
`raw.replace(re, "")`: returns the matched timestamps in order and the line
with the matches removed.  `fuel` only bounds the recursion; every step
consumes at least one character, so `fuel = length of the input` never runs
out. -/
def lrcScanGo : Nat → List Char → List RawTs × List Char
  | 0, cs => ([], cs)
  | _ + 1, [] => ([], [])
  | fuel + 1, c :: rest =>
    match matchTs (c :: rest) with
    | some (ts, rest') =>
      let p := lrcScanGo fuel rest'
      (ts :: p.1, p.2)
    | none =>
      let p := lrcScanGo fuel rest
      (p.1, c :: p.2)

/-- Scan one line for bracket timestamps; `.1` = timestamps, `.2` = the line
with every match removed. -/
def lrcScan (cs : List Char) : List RawTs × List Char :=
  lrcScanGo cs.length cs

/-! ## JS string helpers (`split(/\r?\n/)` and `trim()`) -/

/-- The whitespace class of JS `String.prototype.trim` (the members that can
occur in text input; line/paragraph separators and exotic Unicode spaces are
listed by code point). -/
def isJsSpace (c : Char) : Bool :=
  c = ' ' || c = '\t' || c = '\n' || c = '\r' ||
  c.toNat = 11 || c.toNat = 12 || c.toNat = 0xA0 || c.toNat = 0xFEFF ||
  c.toNat = 0x2028 || c.toNat = 0x2029

/-- Models `String.prototype.trim`. -/
def jsTrim (cs : List Char) : List Char :=
  ((cs.dropWhile isJsSpace).reverse.dropWhile isJsSpace).reverse

/-- Drop one leading `'\r'` (the accumulator is reversed, so this strips the
`'\r'` of a `"\r\n"` separator). -/
def stripCR (cs : List Char) : List Char :=
  match cs with
  | [] => []
  | c :: t => if c = '\r' then t else c :: t

/-- Models `text.split(/\r?\n/)` over an accumulator of the current (reversed)
line. -/
def splitLinesGo (acc : List Char) : List Char → List (List Char)
  | [] => [acc.reverse]
  | c :: rest =>
    if c = '\n' then (stripCR acc).reverse :: splitLinesGo [] rest
    else splitLinesGo (c :: acc) rest

/-! ## `parseLRC` (src/components/AppleMusicLyricsPlayer.tsx lines 26–48)

Its entries carry the time in seconds (`mm * 60 + ss` with `ss` fractional),
exactly as the source computes them. -/

/-- Entry of the `parseLRC` output: `{ time, text }`. -/
structure LyricLine where
  time : ℚ
  text : String
deriving DecidableEq, Repr

/-- Computes `parseInt(m[1], 10) * 60 + parseFloat(m[2])`, in seconds. -/
def tsToSec (r : RawTs) : ℚ :=
  (r.mm : ℚ) * 60 + (r.ss : ℚ) + (r.fracVal : ℚ) / (10 ^ r.fracLen : ℚ)

/-- Body of the per-line `for` loop of `parseLRC`: skip blank lines
(`if (!raw.trim()) continue`), collect the timestamps, remove them to get the
residual text, skip the line when the trimmed residual is empty
(`if (!txt) continue`), else emit one entry per timestamp sharing the text. -/
def lineEntries (raw : List Char) : List LyricLine :=
  if jsTrim raw = [] then []
  else
    let p := lrcScan raw
    let txt := jsTrim p.2
    if txt = [] then []
    else p.1.map fun r => { time := tsToSec r, text := String.mk txt }

/-- The body of `parseLRC` applied to a pre-split list of lines (the loop plus the final
`out.sort((a, b) => a.time - b.time)`). -/
def parseLRCLines (lines : List (List Char)) : List LyricLine :=
  jsSortBy LyricLine.time (lines.flatMap lineEntries)

/-- Embeds `parseLRC` from src/components/AppleMusicLyricsPlayer.tsx lines 26–48:
`if (!text) return []`, split on `/\r?\n/`, per-line loop, final stable sort
by time. -/
def parseLRC (text : String) : List LyricLine :=
  if text = "" then []
  else parseLRCLines (splitLinesGo [] text.data)

/-! ## Segment-producing parser and the `Player.tsx` pipeline -/

/-- Millisecond start time of a matched timestamp:
`(mm * 60 + ss) * 1000` plus the fraction scaled to milliseconds (a fraction
of 1–3 digits contributes `fracVal * 10 ^ (3 - fracLen)` ms, always an
integer). -/
def tsToMs (r : RawTs) : Int :=
  (((r.mm * 60 + r.ss) * 1000 + r.fracVal * 10 ^ (3 - r.fracLen) : Nat) : Int)

/-- Modelled from the spec: the LRC branch of `parseAnyToSegments`
(`./parsers`, imported by src/components/Player/Player.tsx but not under
`src/`).  Spec §4.1: every `[mm:ss.xx]` timestamp on a line produces one
Segment with that line's residual text (no deduplication); lines with no
timestamp produce nothing; `end_ms` is not set by the LRC parser; output is
sorted by `start_ms`.  The bracket-timestamp grammar is the one the in-src
`parseLRC` uses.  The spec gives no id scheme for parsed segments, so `id` is
left `""`. -/
def lineSegmentsLrc (raw : List Char) : List Segment :=
  let p := lrcScan raw
  let txt := jsTrim p.2
  p.1.map fun r => { id := "", start_ms := tsToMs r, end_ms := none, text := String.mk txt }

/-- Modelled from the spec: `parseAnyToSegments(text, format)` (`./parsers`
is not under `src/`).  Only the `"lrc"` branch is exercised by any claim; the
`"vtt"`/`"json"` branches are out of scope here and return `[]`. -/
def parseAnyToSegments (text : String) (format : String) : List Segment :=
  if format = "lrc" then
    jsSortBy Segment.start_ms ((splitLinesGo [] text.data).flatMap lineSegmentsLrc)
  else []

/-- The condition of the end-inference loop of `onLrcFileInput`
(src/components/Player/Player.tsx lines 243–244):
`!segs[i].end_ms || segs[i].end_ms <= segs[i].start_ms` — an absent `end_ms`
is falsy, `0` is falsy too, otherwise the numeric comparison decides. -/
def needsEndInfer (s : Segment) : Bool :=
  match s.end_ms with
  | none => true
  | some e => e = 0 || e ≤ s.start_ms

/-- The loop `for (i = 0; i < segs.length - 1; i++) if (!segs[i].end_ms ||
segs[i].end_ms <= segs[i].start_ms) segs[i].end_ms = segs[i+1].start_ms - 1`
of `onLrcFileInput` (src/components/Player/Player.tsx lines 243–244); each
iteration only reads the successor's (never-written) `start_ms`, so the
sequential in-place loop is this structural map over adjacent pairs. -/
def inferEnds : List Segment → List Segment
  | [] => []
  | [s] => [s]
  | s :: next :: rest =>
    (if needsEndInfer s then { s with end_ms := some (next.start_ms - 1) } else s)
      :: inferEnds (next :: rest)

/-- Embeds `onLrcFileInput` (src/components/Player/Player.tsx lines 238–253) for an
`.lrc` file: parse, then run the end-inference loop.  (The surrounding file
I/O, React state update and cache write are not part of the segment
computation.) -/
def onLrcFileInput (text : String) : List Segment :=
  inferEnds (parseAnyToSegments text "lrc")

/-- JS number-to-string coercion as used in the template literal
`` `manual-${startMs}` ``.  Only its value on integers (where JS prints the
plain decimal numeral) and its injectivity matter to any claim; non-integral
rationals are rendered as `num/den`, which keeps the function injective just
as the JS rendering is. -/
def jsNumToString (q : ℚ) : String :=
  if q.den = 1 then toString q.num
  else toString q.num ++ "/" ++ toString q.den

/-- The Segment built by `onWaveSelection` (src/components/Player/Player.tsx
lines 255–262): `{ id: `manual-${startMs}`, start_ms: Math.floor(startMs),
end_ms: Math.floor(endMs), text: "Selected segment" }`. -/
def mkManualSeg (startMs endMs : ℚ) : Segment :=
  { id := "manual-" ++ jsNumToString startMs
    start_ms := ⌊startMs⌋
    end_ms := some ⌊endMs⌋
    text := "Selected segment" }

/-- Embeds `onWaveSelection` (src/components/Player/Player.tsx lines 255–262):
append the manual segment and re-sort by `start_ms`
(`[...s, seg].sort((a, b) => a.start_ms - b.start_ms)`); no end-inference is
run here. -/
def onWaveSelection (s : List Segment) (startMs endMs : ℚ) : List Segment :=
  jsSortBy Segment.start_ms (s ++ [mkManualSeg startMs endMs])

/-! ## Clock-to-segment lookup (binary search)

The binary search body is embedded from the RAF loop of
src/components/AppleMusicLyricsPlayer.tsx lines 156–167 (`let low = 0, high =
len - 1, ans = -1; while (low <= high) { mid = floor((low+high)/2); if
(arr[mid].start <= t) { ans = mid; low = mid + 1 } else high = mid - 1 }`).
The loop only ever indexes inside the array, so the `getD` default is never
read. -/

/-- Computes `Math.floor((low + high) / 2)`: floor division of the (possibly negative)
sum, i.e. `Int.fdiv`. -/
def jsMid (low high : Int) : Int := Int.fdiv (low + high) 2

/-- The `while (low <= high)` loop of the lookup. -/
def bsLoop (segs : List Segment) (t : Int) (low high ans : Int) : Int :=
  if h : low ≤ high then
    if (segs.getD (jsMid low high).toNat defSeg).start_ms ≤ t then
      bsLoop segs t (jsMid low high + 1) high (jsMid low high)
    else
      bsLoop segs t low (jsMid low high - 1) ans
  else ans
termination_by (high + 1 - low).toNat
decreasing_by
  all_goals
    have hm : low ≤ jsMid low high ∧ jsMid low high ≤ high := by
      unfold jsMid
      rw [Int.fdiv_eq_ediv _ (by norm_num)]
      omega
    omega

/-- Modelled from the spec: `TimingCore.getCurrentSegmentIndex(playbackMs)`
(`TimingCore.ts` is imported by src/components/Player/Player.tsx but is not
under `src/`).  Per spec §4.2 it forms `t = playbackMs + offsetMs` and runs
the standard binary search for the largest index with `start_ms ≤ t` — the
very search the in-src RAF loop performs — over the current segment list. -/
def getCurrentSegmentIndex (segs : List Segment) (offsetMs playbackMs : Int) : Int :=
  bsLoop segs (playbackMs + offsetMs) 0 ((segs.length : Int) - 1) (-1)

/-- Modelled from the spec: the "naive linear scan" that spec §8 property-tests
the lookup against — a single left-to-right pass remembering the last index
whose `start_ms ≤ t`. -/
def linearScanGo (t : Int) : List Segment → Int → Int → Int
  | [], _, ans => ans
  | s :: rest, i, ans => linearScanGo t rest (i + 1) (if s.start_ms ≤ t then i else ans)

/-- Naive linear scan: largest index with `start_ms ≤ t`, else `-1`. -/
def linearScan (segs : List Segment) (t : Int) : Int :=
  linearScanGo t segs 0 (-1)

/-- Number of segments in the leading run with `start_ms ≤ t`; for a sorted
list this is exactly the number of indices with `start_ms ≤ t`. -/
def countLE (t : Int) : List Segment → Nat
  | [] => 0
  | s :: rest => if s.start_ms ≤ t then countLE t rest + 1 else 0

/-- Demo segment list (start times of the spec's scenario list, sorted). -/
def demoSegs : List Segment :=
  [{ id := "l0", start_ms := 0, end_ms := some 3999, text := "a" },
   { id := "l1", start_ms := 4000, end_ms := some 8499, text := "b" },
   { id := "l2", start_ms := 8500, end_ms := none, text := "c" }]

/-! ## Virtualized list visible range
(src/components/Player/VirtualList.tsx lines 65–66) -/

/-- Computes `Math.floor` of the real quotient of two ints (`Math.floor(a / b)` in JS,
for integer `a`, `b`). -/
def jsFloorDiv (a b : Int) : Int := ⌊(a : ℚ) / (b : ℚ)⌋

/-- Lines 65–66 of VirtualList.tsx:
`startIndex = Math.max(0, Math.floor(scrollTop / itemHeight) - overscan)` and
`endIndex = Math.min(items.length - 1,
Math.floor((scrollTop + height) / itemHeight) + overscan)`. -/
def computeVisibleRange (scrollTop itemHeight height overscan itemCount : Int) :
    Int × Int :=
  (max 0 (jsFloorDiv scrollTop itemHeight - overscan),
   min (itemCount - 1) (jsFloorDiv (scrollTop + height) itemHeight + overscan))

/-! ## Waveform selection (src/components/Player/Player.tsx lines 428–467) -/

/-- Embeds `toMs(clientX)` of WaveformEditor (lines 428–432): clamp the pointer
position to the canvas as a fraction of its width
(`min(1, max(0, (clientX - rect.left) / rect.width))`), scaled by the buffer
duration in milliseconds (`audioBuf.duration * 1000`). -/
def toMs (durationMs rectLeft rectWidth clientX : ℚ) : ℚ :=
  durationMs * min 1 (max 0 ((clientX - rectLeft) / rectWidth))

/-- The committed selection of a drag: `onPointerDown` (line 452) anchors
`sel.a` at the press position, `onPointerUp` (lines 460–466) sets `sel.b` to
the release position and emits `(min(sel.a, sel.b), max(sel.a, sel.b))`. -/
def commitSelection (durationMs rectLeft rectWidth downX upX : ℚ) : ℚ × ℚ :=
  (min (toMs durationMs rectLeft rectWidth downX) (toMs durationMs rectLeft rectWidth upX),
   max (toMs durationMs rectLeft rectWidth downX) (toMs durationMs rectLeft rectWidth upX))

/-! ## Waveform peak envelope (src/components/Player/Player.tsx lines 406–420) -/

/-- The inner `for (j = 0; j < step; j++)` loop of `draw`: running
`let min = 1, max = -1`, updated by `if (v < min) min = v` and
`if (v > max) max = v` over the chunk (the `if (idx >= ch.length) break`
clipping is already applied by the caller's `take`). -/
def peakFold : List ℚ → ℚ × ℚ → ℚ × ℚ
  | [], mm => mm
  | v :: rest, mm =>
    peakFold rest (if v < mm.1 then v else mm.1, if mm.2 < v then v else mm.2)

/-- The chunk of samples column `i` reads:
`step = Math.max(1, Math.floor(ch.length / w))` (`Nat` division is that floor)
and indices `i*step … i*step+step-1`, clipped at the end of the array. -/
def codeChunk (ch : List ℚ) (w i : Nat) : List ℚ :=
  (ch.drop (i * max 1 (ch.length / w))).take (max 1 (ch.length / w))

/-- The per-column (min, max) pairs the `draw` loop of `draw` computes (the
subsequent `fillRect` y-coordinate arithmetic is rendering only). -/
def buildPeaks (ch : List ℚ) (w : Nat) : List (ℚ × ℚ) :=
  (List.range w).map fun i => peakFold (codeChunk ch w i) (1, -1)

/-- The chunk of samples the claim's partition assigns to column `i`:
`targetWidthPx` contiguous chunks of `ceil(sampleCount / targetWidthPx)`
samples, the last possibly shorter.  (This follows the claim's words, for
comparison with `codeChunk`.) -/
def ceilChunk (ch : List ℚ) (w i : Nat) : List ℚ :=
  (ch.drop (i * ((ch.length + w - 1) / w))).take ((ch.length + w - 1) / w)

/-! ## Joining lines (to state whole-input parser properties) -/

/-- Join lines with `'\n'` separators (the inverse of `split(/\r?\n/)` for
lines that contain no newline and do not end in `'\r'`). -/
def joinLines : List (List Char) → List Char
  | [] => []
  | [l] => l
  | l :: rest => l ++ '\n' :: joinLines rest

/-! # Theorems -/

/-! ## Stable-sort lemmas -/

theorem mem_insertSorted {α K : Type} [LinearOrder K] (key : α → K) (x : α)
    (l : List α) (z : α) : z ∈ insertSorted key x l ↔ z = x ∨ z ∈ l := by
  induction l with
  | nil => simp [insertSorted]
  | cons y ys ih =>
    by_cases h : key y ≤ key x
    · simp only [insertSorted, if_pos h, List.mem_cons, ih]
      tauto
    · simp only [insertSorted, if_neg h, List.mem_cons]

theorem insertSorted_perm {α K : Type} [LinearOrder K] (key : α → K) (x : α)
    (l : List α) : (insertSorted key x l).Perm (x :: l) := by
  induction l with
  | nil => simp [insertSorted]
  | cons y ys ih =>
    by_cases h : key y ≤ key x
    · simp only [insertSorted, if_pos h]
      exact (ih.cons y).trans (List.Perm.swap x y ys)
    · simp [insertSorted, if_neg h]

theorem insertSorted_pairwise {α K : Type} [LinearOrder K] (key : α → K)
    (x : α) (l : List α) (h : l.Pairwise (fun a b => key a ≤ key b)) :
    (insertSorted key x l).Pairwise (fun a b => key a ≤ key b) := by
  induction l with
  | nil => simp [insertSorted]
  | cons y ys ih =>
    rcases List.pairwise_cons.mp h with ⟨hy, hys⟩
    by_cases hle : key y ≤ key x
    · simp only [insertSorted, if_pos hle]
      refine List.pairwise_cons.mpr ⟨?_, ih hys⟩
      intro z hz
      rcases (mem_insertSorted key x ys z).mp hz with rfl | hz'
      · exact hle
      · exact hy z hz'
    · simp only [insertSorted, if_neg hle]
      refine List.pairwise_cons.mpr ⟨?_, h⟩
      intro z hz
      have hxy : key x ≤ key y := le_of_not_le hle
      rcases List.mem_cons.mp hz with rfl | hz'
      · exact hxy
      · exact hxy.trans (hy z hz')

theorem jsSortBy_perm {α K : Type} [LinearOrder K] (key : α → K) (l : List α) :
    (jsSortBy key l).Perm l := by
  suffices h : ∀ (l acc : List α),
      (l.foldl (fun acc x => insertSorted key x acc) acc).Perm (l ++ acc) by
    simpa using h l []
  intro l
  induction l with
  | nil => simp
  | cons x xs ih =>
    intro acc
    have h1 := ih (insertSorted key x acc)
    have h2 : (xs ++ insertSorted key x acc).Perm (xs ++ x :: acc) :=
      (insertSorted_perm key x acc).append_left xs
    have h3 : (xs ++ x :: acc).Perm (x :: (xs ++ acc)) := List.perm_middle
    simpa using (h1.trans h2).trans h3

theorem jsSortBy_sorted {α K : Type} [LinearOrder K] (key : α → K) (l : List α) :
    (jsSortBy key l).Pairwise (fun a b => key a ≤ key b) := by
  suffices h : ∀ (l acc : List α), acc.Pairwise (fun a b => key a ≤ key b) →
      (l.foldl (fun acc x => insertSorted key x acc) acc).Pairwise
        (fun a b => key a ≤ key b) by
    exact h l [] (by simp)
  intro l
  induction l with
  | nil => intro acc hacc; simpa using hacc
  | cons x xs ih =>
    intro acc hacc
    exact ih _ (insertSorted_pairwise key x acc hacc)

/-! ## Scanner evaluation checks -/

example : lrcScan "[00:01.00][00:02.00] x".data =
    ([⟨0, 1, 0, 2⟩, ⟨0, 2, 0, 2⟩], " x".data) := by decide
example : lrcScan "[00:08.50] c".data = ([⟨0, 8, 50, 2⟩], " c".data) := by decide
example : lrcScan "[123:45.00] overlong".data = ([], "[123:45.00] overlong".data) := by
  decide
example : lrcScan "[0:05.1234] x".data = ([], "[0:05.1234] x".data) := by decide
example : lrcScan "[0:05] x".data = ([⟨0, 5, 0, 0⟩], " x".data) := by decide

example : (onLrcFileInput "[00:00.00] a\n[00:04.00] b\n[00:08.50] c").map
    (fun s => (s.start_ms, s.end_ms, s.text)) =
    [(0, some 3999, "a"), (4000, some 8499, "b"), (8500, none, "c")] := by decide
example : (parseAnyToSegments "[00:01.00][00:02.00] x" "lrc").map
    (fun s => (s.start_ms, s.text)) = [(1000, "x"), (2000, "x")] := by decide

/-! ## Binary-search midpoint -/

theorem jsMid_bounds (low high : Int) (h : low ≤ high) :
    low ≤ jsMid low high ∧ jsMid low high ≤ high := by
  unfold jsMid
  rw [Int.fdiv_eq_ediv _ (by norm_num)]
  omega

/-! ## Lookup correctness -/

theorem countLE_le_length (t : Int) (l : List Segment) : countLE t l ≤ l.length := by
  induction l with
  | nil => simp [countLE]
  | cons s rest ih =>
    by_cases h : s.start_ms ≤ t
    · simp only [countLE, if_pos h, List.length_cons]
      omega
    · simp only [countLE, if_neg h]
      omega

theorem countLE_lt (t : Int) (l : List Segment) (i : Nat) (hi : i < countLE t l) :
    (l.getD i defSeg).start_ms ≤ t := by
  induction l generalizing i with
  | nil => simp [countLE] at hi
  | cons s rest ih =>
    by_cases h : s.start_ms ≤ t
    · rcases i with _ | j
      · simpa using h
      · simp only [countLE, if_pos h] at hi
        simpa using ih j (by omega)
    · simp [countLE, h] at hi

theorem countLE_ge (t : Int) (l : List Segment)
    (hs : l.Pairwise (fun a b => a.start_ms ≤ b.start_ms)) (i : Nat)
    (hk : countLE t l ≤ i) (hi : i < l.length) :
    t < (l.getD i defSeg).start_ms := by
  induction l generalizing i with
  | nil => simp at hi
  | cons s rest ih =>
    rcases List.pairwise_cons.mp hs with ⟨hfirst, hrest⟩
    by_cases h : s.start_ms ≤ t
    · simp only [countLE, if_pos h] at hk
      rcases i with _ | j
      · omega
      · simpa using ih hrest j (by omega) (by simpa using hi)
    · rcases i with _ | j
      · simpa using lt_of_not_le h
      · have hj : j < rest.length := by simpa using hi
        have hmem : rest.getD j defSeg ∈ rest := by
          rw [List.getD_eq_getElem rest defSeg hj]
          exact List.getElem_mem hj
        have := hfirst _ hmem
        have h2 : t < s.start_ms := lt_of_not_le h
        simpa using lt_of_lt_of_le h2 this

/-- Loop invariant of the binary search: with `ans = low - 1` and the answer
count `k = countLE t segs` pinched between `low` and `high + 1`, the loop
returns `k - 1`. -/
theorem bsLoop_eq_countLE (segs : List Segment) (t : Int)
    (hs : segs.Pairwise (fun a b => a.start_ms ≤ b.start_ms)) :
    ∀ (n : Nat) (low high ans : Int),
      (high + 1 - low).toNat ≤ n →
      0 ≤ low → high < (segs.length : Int) → ans = low - 1 →
      low ≤ (countLE t segs : Int) → (countLE t segs : Int) ≤ high + 1 →
      bsLoop segs t low high ans = (countLE t segs : Int) - 1 := by
  intro n
  induction n with
  | zero =>
    intro low high ans hn h0 hh hans hlo hhi
    rw [bsLoop, dif_neg (by omega)]
    omega
  | succ n ih =>
    intro low high ans hn h0 hh hans hlo hhi
    by_cases hlh : low ≤ high
    · have hm := jsMid_bounds low high hlh
      rw [bsLoop, dif_pos hlh]
      by_cases hcmp : (segs.getD (jsMid low high).toNat defSeg).start_ms ≤ t
      · rw [if_pos hcmp]
        have hmidk : jsMid low high < (countLE t segs : Int) := by
          by_contra hcon
          have hge : (countLE t segs : Int) ≤ jsMid low high := le_of_not_lt hcon
          have h1 : countLE t segs ≤ (jsMid low high).toNat := by omega
          have h2 : (jsMid low high).toNat < segs.length := by omega
          exact absurd hcmp (not_le_of_lt (countLE_ge t segs hs _ h1 h2))
        exact ih (jsMid low high + 1) high (jsMid low high) (by omega) (by omega) hh
          (by omega) (by omega) hhi
      · rw [if_neg hcmp]
        have hkmid : (countLE t segs : Int) ≤ jsMid low high := by
          by_contra hcon
          have hlt : (jsMid low high).toNat < countLE t segs := by omega
          exact absurd (countLE_lt t segs _ hlt) hcmp
        exact ih low (jsMid low high - 1) ans (by omega) h0 (by omega) hans hlo (by omega)
    · rw [bsLoop, dif_neg hlh]
      omega

theorem getCurrentSegmentIndex_eq_countLE (segs : List Segment)
    (offsetMs playbackMs : Int)
    (hs : segs.Pairwise (fun a b => a.start_ms ≤ b.start_ms)) :
    getCurrentSegmentIndex segs offsetMs playbackMs =
      (countLE (playbackMs + offsetMs) segs : Int) - 1 := by
  have hk := countLE_le_length (playbackMs + offsetMs) segs
  exact bsLoop_eq_countLE segs (playbackMs + offsetMs) hs segs.length 0
    ((segs.length : Int) - 1) (-1) (by omega) (by omega) (by omega) (by omega)
    (by omega) (by omega)

theorem linearScanGo_const (t : Int) (l : List Segment)
    (hall : ∀ s ∈ l, ¬ s.start_ms ≤ t) : ∀ i ans, linearScanGo t l i ans = ans := by
  induction l with
  | nil => intro i ans; rfl
  | cons s rest ih =>
    intro i ans
    have h := hall s (by simp)
    simp only [linearScanGo, if_neg h]
    exact ih (fun s hs => hall s (by simp [hs])) (i + 1) ans

theorem linearScanGo_sorted (t : Int) (l : List Segment)
    (hs : l.Pairwise (fun a b => a.start_ms ≤ b.start_ms)) :
    ∀ i : Int, linearScanGo t l i (i - 1) = i + (countLE t l : Int) - 1 := by
  induction l with
  | nil => intro i; simp [linearScanGo, countLE]
  | cons s rest ih =>
    rcases List.pairwise_cons.mp hs with ⟨hfirst, hrest⟩
    intro i
    by_cases h : s.start_ms ≤ t
    · simp only [linearScanGo, if_pos h]
      have h2 := ih hrest (i + 1)
      have h3 : i + 1 - 1 = i := by ring
      rw [h3] at h2
      rw [h2]
      simp only [countLE, if_pos h]
      push_cast
      ring
    · have hall : ∀ x ∈ rest, ¬ x.start_ms ≤ t := by
        intro x hx
        have := hfirst x hx
        omega
      simp only [linearScanGo, if_neg h]
      rw [linearScanGo_const t rest hall (i + 1) (i - 1)]
      simp [countLE, h]

theorem linearScan_eq_countLE (segs : List Segment) (t : Int)
    (hs : segs.Pairwise (fun a b => a.start_ms ≤ b.start_ms)) :
    linearScan segs t = (countLE t segs : Int) - 1 := by
  have h := linearScanGo_sorted t segs hs 0
  simpa [linearScan] using h

theorem countLE_endmap (t : Int) (f : Segment → Option Int) (l : List Segment) :
    countLE t (l.map fun s => { s with end_ms := f s }) = countLE t l := by
  induction l with
  | nil => rfl
  | cons s rest ih =>
    by_cases h : s.start_ms ≤ t <;> simp [countLE, h, ih]

/-- C1: on a segment list sorted ascending by `start_ms`, the lookup with
`t = playbackMs + offsetMs` (i) equals the naive linear scan, (ii) dominates
every index whose `start_ms ≤ t` (so ties on `start_ms` resolve to the
largest tied index), (iii) when non-negative is a valid index with
`start_ms ≤ t` (hence is the largest such index), (iv) is `-1` exactly when
no index has `start_ms ≤ t` (covering the empty list and `t` before the
first start), (v) is unchanged under arbitrary rewriting of every `end_ms`
(the decision ignores `end_ms` entirely), and (vi) is `-1` whenever the
adjusted time is negative and starts are non-negative. -/
theorem getCurrentSegmentIndex_correct (segs : List Segment)
    (offsetMs playbackMs : Int)
    (hs : segs.Pairwise (fun a b => a.start_ms ≤ b.start_ms)) :
    getCurrentSegmentIndex segs offsetMs playbackMs =
        linearScan segs (playbackMs + offsetMs)
    ∧ (∀ i : Nat, i < segs.length →
        (segs.getD i defSeg).start_ms ≤ playbackMs + offsetMs →
        (i : Int) ≤ getCurrentSegmentIndex segs offsetMs playbackMs)
    ∧ (0 ≤ getCurrentSegmentIndex segs offsetMs playbackMs →
        (getCurrentSegmentIndex segs offsetMs playbackMs).toNat < segs.length ∧
        (segs.getD (getCurrentSegmentIndex segs offsetMs playbackMs).toNat
            defSeg).start_ms ≤ playbackMs + offsetMs)
    ∧ (getCurrentSegmentIndex segs offsetMs playbackMs = -1 ↔
        ∀ i : Nat, i < segs.length →
          playbackMs + offsetMs < (segs.getD i defSeg).start_ms)
    ∧ (∀ f : Segment → Option Int,
        getCurrentSegmentIndex (segs.map fun s => { s with end_ms := f s })
            offsetMs playbackMs
          = getCurrentSegmentIndex segs offsetMs playbackMs)
    ∧ ((∀ s ∈ segs, 0 ≤ s.start_ms) → playbackMs + offsetMs < 0 →
        getCurrentSegmentIndex segs offsetMs playbackMs = -1) := by
  have hk := getCurrentSegmentIndex_eq_countLE segs offsetMs playbackMs hs
  have hkl := countLE_le_length (playbackMs + offsetMs) segs
  refine ⟨?_, ?_, ?_, ?_, ?_, ?_⟩
  · rw [hk, linearScan_eq_countLE segs (playbackMs + offsetMs) hs]
  · intro i hi hle
    by_contra hcon
    have h1 : countLE (playbackMs + offsetMs) segs ≤ i := by omega
    exact absurd hle
      (not_le_of_lt (countLE_ge (playbackMs + offsetMs) segs hs i h1 hi))
  · intro hge
    have h1 : 1 ≤ countLE (playbackMs + offsetMs) segs := by omega
    constructor
    · omega
    · have h2 : (getCurrentSegmentIndex segs offsetMs playbackMs).toNat <
          countLE (playbackMs + offsetMs) segs := by omega
      exact countLE_lt (playbackMs + offsetMs) segs _ h2
  · constructor
    · intro hz i hi
      have h0 : countLE (playbackMs + offsetMs) segs = 0 := by omega
      exact countLE_ge (playbackMs + offsetMs) segs hs i (by omega) hi
    · intro hall
      by_contra hne
      have h1 : 1 ≤ countLE (playbackMs + offsetMs) segs := by omega
      have h2 := countLE_lt (playbackMs + offsetMs) segs 0 (by omega)
      have h3 : 0 < segs.length := by omega
      exact absurd h2 (not_le_of_lt (hall 0 h3))
  · intro f
    have hs2 : (segs.map fun s => { s with end_ms := f s }).Pairwise
        (fun a b => a.start_ms ≤ b.start_ms) := by
      rw [List.pairwise_map]
      exact hs
    rw [getCurrentSegmentIndex_eq_countLE _ offsetMs playbackMs hs2, hk,
      countLE_endmap]
  · intro hpos hneg
    have h0 : countLE (playbackMs + offsetMs) segs = 0 := by
      cases hcl : countLE (playbackMs + offsetMs) segs with
      | zero => rfl
      | succ m =>
        have h2 := countLE_lt (playbackMs + offsetMs) segs 0 (by omega)
        have h3 : 0 < segs.length := by omega
        have hmem : segs.getD 0 defSeg ∈ segs := by
          rw [List.getD_eq_getElem segs defSeg h3]
          exact List.getElem_mem h3
        have := hpos _ hmem
        omega
    omega

/-- C1 witness: the sorted demo list at playback 5000 ms, offset 0; the
lookup agrees with the naive scan and returns index 1. -/
theorem getCurrentSegmentIndex_correct_witness :
    getCurrentSegmentIndex demoSegs 0 5000 = 1 := by
  have h := (getCurrentSegmentIndex_correct demoSegs 0 5000 (by decide)).1
  rw [h]
  decide

/-! ## Visible range (C5) -/

theorem jsFloorDiv_eq_ediv (a b : Int) (hb : 0 < b) : jsFloorDiv a b = a / b := by
  unfold jsFloorDiv
  obtain ⟨n, rfl⟩ : ∃ n : Nat, b = (n : Int) := ⟨b.toNat, (Int.toNat_of_nonneg hb.le).symm⟩
  have h : ((n : Int) : ℚ) = (n : ℚ) := by push_cast; ring
  rw [h]
  exact Rat.floor_intCast_div_natCast a n

/-- C5: for every viewport state with `scrollOffsetPx ≥ 0`,
`itemHeightPx > 0`, `viewportHeightPx > 0`, `overscan ≥ 0` and every
`itemCount`, the visible range is
`start = max(0, floor(scrollOffsetPx / itemHeightPx) − overscan)` and
`end = min(itemCount − 1, floor((scrollOffsetPx + viewportHeightPx) /
itemHeightPx) + overscan)` (the floors written as integer division); with
1000 items, item height 56, viewport height 560, scroll offset 560 and
overscan 5 the window is `(5, 25)`, which covers indices 5 through 20. -/
theorem computeVisibleRange_correct
    (scrollTop itemHeight height overscan itemCount : Int)
    (_h1 : 0 ≤ scrollTop) (h2 : 0 < itemHeight) (_h3 : 0 < height)
    (_h4 : 0 ≤ overscan) :
    computeVisibleRange scrollTop itemHeight height overscan itemCount =
      (max 0 (scrollTop / itemHeight - overscan),
       min (itemCount - 1) ((scrollTop + height) / itemHeight + overscan))
    ∧ computeVisibleRange 560 56 560 5 1000 = (5, 25)
    ∧ (∀ i : Int, 5 ≤ i → i ≤ 20 →
        (computeVisibleRange 560 56 560 5 1000).1 ≤ i ∧
        i ≤ (computeVisibleRange 560 56 560 5 1000).2) := by
  have hgen : ∀ (st ih hh ov n : Int), 0 < ih →
      computeVisibleRange st ih hh ov n =
        (max 0 (st / ih - ov), min (n - 1) ((st + hh) / ih + ov)) := by
    intro st ih hh ov n hih
    unfold computeVisibleRange
    rw [jsFloorDiv_eq_ediv _ _ hih, jsFloorDiv_eq_ediv _ _ hih]
  refine ⟨hgen _ _ _ _ _ h2, ?_, ?_⟩
  · rw [hgen 560 56 560 5 1000 (by norm_num)]
    decide
  · intro i hi1 hi2
    rw [hgen 560 56 560 5 1000 (by norm_num)]
    constructor
    · have h : max (0 : Int) (560 / 56 - 5) = 5 := by decide
      omega
    · have h : min ((1000 : Int) - 1) ((560 + 560) / 56 + 5) = 25 := by decide
      omega

/-- C5 witness: the scenario instance, via the theorem. -/
theorem computeVisibleRange_correct_witness :
    computeVisibleRange 560 56 560 5 1000 = (5, 25) :=
  (computeVisibleRange_correct 560 56 560 5 1000 (by norm_num) (by norm_num)
    (by norm_num) (by norm_num)).2.1

/-! ## Waveform selection normalization (C8) -/

/-- C8: for every drag (any order of anchor and release, including equal
positions), the committed selection is `(min, max)` of the two endpoint
times, so the pair is ordered and the manual Segment built from it has
`start_ms ≤` the floored end time (hence never an inverted Segment), and it
is inserted into the merged list; in the scenario — pixels 10 → 5 on a
300-px canvas over a 10000 ms buffer — the committed Segment has
`start_ms = 166 < 333 = end_ms`. -/
theorem waveSelection_normalized (durationMs rectLeft rectWidth downX upX : ℚ)
    (s : List Segment) :
    (commitSelection durationMs rectLeft rectWidth downX upX).1 ≤
      (commitSelection durationMs rectLeft rectWidth downX upX).2
    ∧ (mkManualSeg (commitSelection durationMs rectLeft rectWidth downX upX).1
        (commitSelection durationMs rectLeft rectWidth downX upX).2).start_ms ≤
      ⌊(commitSelection durationMs rectLeft rectWidth downX upX).2⌋
    ∧ (mkManualSeg (commitSelection durationMs rectLeft rectWidth downX upX).1
        (commitSelection durationMs rectLeft rectWidth downX upX).2).end_ms =
      some ⌊(commitSelection durationMs rectLeft rectWidth downX upX).2⌋
    ∧ mkManualSeg (commitSelection durationMs rectLeft rectWidth downX upX).1
        (commitSelection durationMs rectLeft rectWidth downX upX).2 ∈
      onWaveSelection s (commitSelection durationMs rectLeft rectWidth downX upX).1
        (commitSelection durationMs rectLeft rectWidth downX upX).2
    ∧ commitSelection 10000 0 300 10 5 = (500/3, 1000/3)
    ∧ (mkManualSeg (500/3) (1000/3)).start_ms = 166
    ∧ (mkManualSeg (500/3) (1000/3)).end_ms = some 333
    ∧ (166 : Int) < 333 := by
  refine ⟨min_le_max, ?_, rfl, ?_, ?_, ?_, ?_, by norm_num⟩
  · exact Int.floor_le_floor min_le_max
  · have hperm := jsSortBy_perm Segment.start_ms
      (s ++ [mkManualSeg (commitSelection durationMs rectLeft rectWidth downX upX).1
        (commitSelection durationMs rectLeft rectWidth downX upX).2])
    rw [onWaveSelection, hperm.mem_iff]
    simp
  · unfold commitSelection toMs
    norm_num [min_def, max_def]
  · show (⌊(500/3 : ℚ)⌋ : Int) = 166
    norm_num [Int.floor_eq_iff]
  · show (mkManualSeg (500/3) (1000/3)).end_ms = some 333
    unfold mkManualSeg
    norm_num [Int.floor_eq_iff]

/-! ## LRC parse pipeline scenario (C2) -/

/-- C2: parsing `"[00:00.00] a\n[00:04.00] b\n[00:08.50] c"` and running the
shared end-inference yields exactly three segments, in order, with starts
0 / 4000 / 8500 ms, inferred ends 3999 / 8499, and an open (absent) end on
the last. -/
theorem lrcParsePipeline_scenario :
    (onLrcFileInput "[00:00.00] a\n[00:04.00] b\n[00:08.50] c").map
      (fun s => (s.start_ms, s.end_ms, s.text)) =
      [(0, some 3999, "a"), (4000, some 8499, "b"), (8500, none, "c")] := by
  decide

/-! ## End-time inference (C3) -/

theorem inferEnds_length (l : List Segment) : (inferEnds l).length = l.length := by
  induction l with
  | nil => rfl
  | cons s rest ih =>
    cases rest with
    | nil => rfl
    | cons nxt rest2 => simp only [inferEnds, List.length_cons] at ih ⊢; omega

theorem inferEnds_getD (l : List Segment) (i : Nat) (hi : i + 1 < l.length) :
    (inferEnds l).getD i defSeg =
      (if needsEndInfer (l.getD i defSeg)
       then { l.getD i defSeg with
                end_ms := some ((l.getD (i + 1) defSeg).start_ms - 1) }
       else l.getD i defSeg) := by
  induction l generalizing i with
  | nil => simp at hi
  | cons s rest ih =>
    cases rest with
    | nil => simp at hi
    | cons nxt rest2 =>
      rcases i with _ | j
      · simp [inferEnds, List.getD_cons_zero, List.getD_cons_succ]
      · have hj : j + 1 < (nxt :: rest2).length := by simpa using hi
        simp only [inferEnds, List.getD_cons_succ]
        exact ih j hj

theorem parseAny_end_none (text : String) :
    ∀ x ∈ parseAnyToSegments text "lrc", x.end_ms = none := by
  intro x hx
  have hperm := jsSortBy_perm Segment.start_ms
    ((splitLinesGo [] text.data).flatMap lineSegmentsLrc)
  rw [show parseAnyToSegments text "lrc" =
      jsSortBy Segment.start_ms
        ((splitLinesGo [] text.data).flatMap lineSegmentsLrc) from rfl] at hx
  rw [hperm.mem_iff] at hx
  rcases List.mem_flatMap.mp hx with ⟨line, _, hline⟩
  rcases List.mem_map.mp hline with ⟨r, _, rfl⟩
  rfl

/-- C3 (amended): the shared post-processing pass infers exactly the ends the
claim describes — after parsing, every non-last segment whose `end_ms` was
absent (or zero, or ≤ its `start_ms`) gets `next start_ms − 1`, other
segments are untouched, and on the LRC parse path every non-last segment is
so inferred — but merging a manually created waveform segment re-sorts
WITHOUT re-running end inference: the merged list is a permutation of the
old list with the new segment appended, so it holds exactly the old
elements, unchanged and none dropped, plus the new segment. -/
theorem endInference_correct :
    (∀ (l : List Segment) (i : Nat), i + 1 < l.length →
        (needsEndInfer (l.getD i defSeg) = true →
          ((inferEnds l).getD i defSeg).end_ms =
            some ((l.getD (i + 1) defSeg).start_ms - 1))
        ∧ (needsEndInfer (l.getD i defSeg) = false →
          (inferEnds l).getD i defSeg = l.getD i defSeg))
    ∧ (∀ (text : String) (i : Nat),
        i + 1 < (parseAnyToSegments text "lrc").length →
        ((onLrcFileInput text).getD i defSeg).end_ms =
          some (((parseAnyToSegments text "lrc").getD (i + 1) defSeg).start_ms - 1))
    ∧ (∀ (l : List Segment) (a b : ℚ),
        (onWaveSelection l a b).Perm (l ++ [mkManualSeg a b]))
    ∧ (∀ (l : List Segment) (a b : ℚ), ∀ x ∈ onWaveSelection l a b,
        x = mkManualSeg a b ∨ x ∈ l) := by
  refine ⟨?_, ?_, ?_, ?_⟩
  · intro l i hi
    constructor
    · intro hinf
      rw [inferEnds_getD l i hi, if_pos hinf]
    · intro hninf
      rw [inferEnds_getD l i hi, if_neg (by rw [hninf]; simp)]
  · intro text i hi
    have hmem : (parseAnyToSegments text "lrc").getD i defSeg ∈
        parseAnyToSegments text "lrc" := by
      rw [List.getD_eq_getElem _ defSeg (by omega)]
      exact List.getElem_mem (by omega)
    have hnone := parseAny_end_none text _ hmem
    have hinf : needsEndInfer ((parseAnyToSegments text "lrc").getD i defSeg) = true := by
      simp only [needsEndInfer]
      rw [hnone]
    rw [onLrcFileInput, inferEnds_getD _ i hi, if_pos hinf]
  · intro l a b
    exact jsSortBy_perm Segment.start_ms (l ++ [mkManualSeg a b])
  · intro l a b x hx
    have hperm := jsSortBy_perm Segment.start_ms (l ++ [mkManualSeg a b])
    rw [onWaveSelection, hperm.mem_iff] at hx
    rcases List.mem_append.mp hx with h | h
    · exact Or.inr h
    · exact Or.inl (by simpa using h)

/-- C3 witness: on the parse path the first segment's end is inferred from
the second segment's start. -/
theorem endInference_correct_witness :
    ((onLrcFileInput "[00:00.00] a\n[00:04.00] b").getD 0 defSeg).end_ms =
      some 3999 := by
  have h := endInference_correct.2.1 "[00:00.00] a\n[00:04.00] b" 0 (by decide)
  rw [h]
  decide

/-- C3 counterexample: merging a waveform selection runs no end inference —
in the merged list for [{start 0, end absent}, {start 100, end 150}] and the
committed selection (200, 300), the first segment still has an absent
`end_ms`, not `some 99` as the claim requires of a non-last segment whose
end was absent. -/
theorem endInference_counterexample :
    ¬ (∀ i : Nat,
        i + 1 < (onWaveSelection
          [{ id := "l0", start_ms := 0, end_ms := none, text := "x" },
           { id := "l1", start_ms := 100, end_ms := some 150, text := "y" }]
          200 300).length →
        needsEndInfer ((onWaveSelection
          [{ id := "l0", start_ms := 0, end_ms := none, text := "x" },
           { id := "l1", start_ms := 100, end_ms := some 150, text := "y" }]
          200 300).getD i defSeg) = true →
        ((onWaveSelection
          [{ id := "l0", start_ms := 0, end_ms := none, text := "x" },
           { id := "l1", start_ms := 100, end_ms := some 150, text := "y" }]
          200 300).getD i defSeg).end_ms =
          some (((onWaveSelection
            [{ id := "l0", start_ms := 0, end_ms := none, text := "x" },
             { id := "l1", start_ms := 100, end_ms := some 150, text := "y" }]
            200 300).getD (i + 1) defSeg).start_ms - 1)) := by
  intro hall
  have h := hall 0 (by decide) (by decide)
  revert h
  decide

/-! ## Manual-merge invariants (C4) -/

/-- C4 (amended): the list obtained by inserting the synthesized manual
segment is always sorted ascending by `start_ms`; its ids are pairwise
distinct provided the existing ids were pairwise distinct and none of them
already equals the synthesized id `manual-<startMs>` (the code does nothing
to guarantee the latter — see the counterexample). -/
theorem waveMerge_invariants (l : List Segment) (a b : ℚ) :
    (onWaveSelection l a b).Pairwise (fun x y => x.start_ms ≤ y.start_ms)
    ∧ ((l.map Segment.id).Nodup →
        ("manual-" ++ jsNumToString a) ∉ l.map Segment.id →
        ((onWaveSelection l a b).map Segment.id).Nodup) := by
  constructor
  · exact jsSortBy_sorted _ _
  · intro hnd hfresh
    have hperm := (jsSortBy_perm Segment.start_ms (l ++ [mkManualSeg a b])).map
      Segment.id
    rw [onWaveSelection, hperm.nodup_iff, List.map_append]
    simp only [List.nodup_append, List.map_cons, List.map_nil]
    refine ⟨hnd, by simp, ?_⟩
    intro y hy
    simp only [List.mem_cons, List.not_mem_nil, or_false]
    intro hcon
    apply hfresh
    rw [hcon] at hy
    simpa [mkManualSeg] using hy

/-- C4 witness: inserting the selection (100, 200) into a list with the
single id "l0" keeps the ids pairwise distinct. -/
theorem waveMerge_invariants_witness :
    ((onWaveSelection
        [{ id := "l0", start_ms := 0, end_ms := some 99, text := "a" }]
        100 200).map Segment.id).Nodup :=
  (waveMerge_invariants
    [{ id := "l0", start_ms := 0, end_ms := some 99, text := "a" }] 100 200).2
    (by decide) (by decide)

/-- C4 counterexample: committing a second selection that starts at the same
time (100 ms) as an earlier manual segment reuses the synthesized id — the
merged list carries `"manual-100"` twice. -/
theorem waveMerge_counterexample :
    ¬ ((onWaveSelection [mkManualSeg 100 200] 100 300).map Segment.id).Nodup := by
  decide

/-! ## LRC fan-out (C6) -/

/-- C6: an LRC line with n timestamps fans out into n segments, one per
timestamp in order, all sharing the line's residual text, with no
deduplication; `"[00:01.00][00:02.00] x"` parses to exactly two segments,
both with text "x", starts 1000 and 2000 ms. -/
theorem lrcFanOut (raw : List Char) :
    (lineSegmentsLrc raw).length = (lrcScan raw).1.length
    ∧ (lineSegmentsLrc raw).map Segment.start_ms = (lrcScan raw).1.map tsToMs
    ∧ (∀ x ∈ lineSegmentsLrc raw, x.text = String.mk (jsTrim (lrcScan raw).2))
    ∧ (parseAnyToSegments "[00:01.00][00:02.00] x" "lrc").map
        (fun s => (s.start_ms, s.text)) = [(1000, "x"), (2000, "x")] := by
  refine ⟨?_, ?_, ?_, by decide⟩
  · simp [lineSegmentsLrc]
  · simp [lineSegmentsLrc, List.map_map]
  · intro x hx
    rcases List.mem_map.mp hx with ⟨r, _, rfl⟩
    rfl

/-- C6 witness: the duplicate-timestamp line, via the theorem: its first
fanned-out segment carries the shared residual text "x". -/
theorem lrcFanOut_witness :
    ((lineSegmentsLrc "[00:01.00][00:02.00] x".data).getD 0 defSeg).text = "x" := by
  have h := (lrcFanOut "[00:01.00][00:02.00] x".data).2.2.1
    ((lineSegmentsLrc "[00:01.00][00:02.00] x".data).getD 0 defSeg) (by decide)
  rw [h]
  decide

/-! ## Peak envelope (C7) -/

theorem peakFold_eq (l : List ℚ) : ∀ mn mx : ℚ,
    peakFold l (mn, mx) = (l.foldl min mn, l.foldl max mx) := by
  induction l with
  | nil => intro mn mx; rfl
  | cons v rest ih =>
    intro mn mx
    have h1 : (if v < mn then v else mn) = min mn v := by
      by_cases h : v < mn
      · rw [if_pos h, min_eq_right h.le]
      · rw [if_neg h, min_eq_left (le_of_not_lt h)]
    have h2 : (if mx < v then v else mx) = max mx v := by
      by_cases h : mx < v
      · rw [if_pos h, max_eq_right h.le]
      · rw [if_neg h, max_eq_left (le_of_not_lt h)]
    simp only [peakFold, List.foldl_cons, h1, h2]
    exact ih _ _

theorem foldl_min_le_init {α : Type} [LinearOrder α] :
    ∀ (l : List α) (mn : α), l.foldl min mn ≤ mn := by
  intro l
  induction l with
  | nil => intro mn; exact le_refl mn
  | cons v rest ih => intro mn; exact (ih (min mn v)).trans (min_le_left mn v)

theorem foldl_min_le_mem {α : Type} [LinearOrder α] (x : α) :
    ∀ (l : List α) (mn : α), x ∈ l → l.foldl min mn ≤ x := by
  intro l
  induction l with
  | nil => intro mn hx; simp at hx
  | cons v rest ih =>
    intro mn hx
    rcases List.mem_cons.mp hx with rfl | hx'
    · exact (foldl_min_le_init rest (min mn x)).trans (min_le_right mn x)
    · exact ih (min mn v) hx'

theorem foldl_min_mem_or {α : Type} [LinearOrder α] :
    ∀ (l : List α) (mn : α), l.foldl min mn = mn ∨ l.foldl min mn ∈ l := by
  intro l
  induction l with
  | nil => intro mn; exact Or.inl rfl
  | cons v rest ih =>
    intro mn
    rcases ih (min mn v) with heq | hmem
    · rcases min_choice mn v with hc | hc
      · exact Or.inl (by rw [List.foldl_cons, heq, hc])
      · exact Or.inr (by rw [List.foldl_cons, heq, hc]; exact List.mem_cons_self v rest)
    · exact Or.inr (List.mem_cons_of_mem v hmem)

theorem foldl_max_init_le {α : Type} [LinearOrder α] :
    ∀ (l : List α) (mx : α), mx ≤ l.foldl max mx := by
  intro l
  induction l with
  | nil => intro mx; exact le_refl mx
  | cons v rest ih => intro mx; exact (le_max_left mx v).trans (ih (max mx v))

theorem foldl_max_mem_le {α : Type} [LinearOrder α] (x : α) :
    ∀ (l : List α) (mx : α), x ∈ l → x ≤ l.foldl max mx := by
  intro l
  induction l with
  | nil => intro mx hx; simp at hx
  | cons v rest ih =>
    intro mx hx
    rcases List.mem_cons.mp hx with rfl | hx'
    · exact (le_max_right mx x).trans (foldl_max_init_le rest (max mx x))
    · exact ih (max mx v) hx'

theorem foldl_max_mem_or {α : Type} [LinearOrder α] :
    ∀ (l : List α) (mx : α), l.foldl max mx = mx ∨ l.foldl max mx ∈ l := by
  intro l
  induction l with
  | nil => intro mx; exact Or.inl rfl
  | cons v rest ih =>
    intro mx
    rcases ih (max mx v) with heq | hmem
    · rcases max_choice mx v with hc | hc
      · exact Or.inl (by rw [List.foldl_cons, heq, hc])
      · exact Or.inr (by rw [List.foldl_cons, heq, hc]; exact List.mem_cons_self v rest)
    · exact Or.inr (List.mem_cons_of_mem v hmem)

theorem codeChunk_subset (ch : List ℚ) (w i : Nat) :
    ∀ x ∈ codeChunk ch w i, x ∈ ch := by
  intro x hx
  exact List.mem_of_mem_drop (List.mem_of_mem_take hx)

theorem buildPeaks_getD (ch : List ℚ) (w i : Nat) (hi : i < w) :
    (buildPeaks ch w).getD i (0, 0) = peakFold (codeChunk ch w i) (1, -1) := by
  rw [buildPeaks, List.getD_eq_getElem _ _ (by simpa using hi)]
  simp

/-- C7 (amended): the `draw` loop produces one (min, max) pair per pixel
column over chunks of `max(1, floor(sampleCount / targetWidthPx))` samples
starting at `i * step` (not the claim's `ceil(sampleCount / targetWidthPx)`
partition): for samples within `[-1, 1]`, a nonempty chunk's pair is its
attained minimum and maximum, while an empty chunk yields the sentinel
`(1, -1)` — not silence `(0, 0)` and not the previous column's value. -/
theorem buildPeakEnvelope_correct (ch : List ℚ) (w : Nat) (_hw : 0 < w)
    (hb : ∀ x ∈ ch, -1 ≤ x ∧ x ≤ 1) :
    (buildPeaks ch w).length = w
    ∧ (∀ i : Nat, i < w →
        (codeChunk ch w i = [] → (buildPeaks ch w).getD i (0, 0) = (1, -1))
        ∧ (∀ x ∈ codeChunk ch w i,
            ((buildPeaks ch w).getD i (0, 0)).1 ≤ x ∧
            x ≤ ((buildPeaks ch w).getD i (0, 0)).2)
        ∧ (codeChunk ch w i ≠ [] →
            ((buildPeaks ch w).getD i (0, 0)).1 ∈ codeChunk ch w i ∧
            ((buildPeaks ch w).getD i (0, 0)).2 ∈ codeChunk ch w i)) := by
  refine ⟨by simp [buildPeaks], ?_⟩
  intro i hi
  rw [buildPeaks_getD ch w i hi, peakFold_eq]
  refine ⟨?_, ?_, ?_⟩
  · intro h
    rw [h]
    rfl
  · intro x hx
    exact ⟨foldl_min_le_mem x _ 1 hx, foldl_max_mem_le x _ (-1) hx⟩
  · intro hne
    obtain ⟨x0, hx0⟩ := List.exists_mem_of_ne_nil _ hne
    have hxb := hb x0 (codeChunk_subset ch w i x0 hx0)
    constructor
    · rcases foldl_min_mem_or (codeChunk ch w i) 1 with heq | hmem
      · have h1 : (codeChunk ch w i).foldl min 1 ≤ x0 := foldl_min_le_mem x0 _ 1 hx0
        have h2 : x0 = (codeChunk ch w i).foldl min 1 := le_antisymm (by rw [heq]; exact hxb.2) h1
        rw [← h2]
        exact hx0
      · exact hmem
    · rcases foldl_max_mem_or (codeChunk ch w i) (-1) with heq | hmem
      · have h1 : x0 ≤ (codeChunk ch w i).foldl max (-1) := foldl_max_mem_le x0 _ (-1) hx0
        have h2 : x0 = (codeChunk ch w i).foldl max (-1) := le_antisymm h1 (by rw [heq]; exact hxb.1)
        rw [← h2]
        exact hx0
      · exact hmem

/-- C7 witness: two samples over four columns — column 2's chunk is empty and
the code outputs the sentinel `(1, -1)`, via the theorem. -/
theorem buildPeakEnvelope_correct_witness :
    (buildPeaks [1, 0] 4).getD 2 (0, 0) = (1, -1) :=
  (((buildPeakEnvelope_correct [1, 0] 4 (by norm_num) (by decide)).2 2
    (by norm_num)).1) (by decide)

/-- C7 counterexample: with seven samples over three columns the code's
chunks have `max(1, floor(7/3)) = 2` samples, so its column 2 reads samples
4–5 and outputs `(0, 0)`, while the claim's ceil-partition gives column 2
the chunk `[1]` (sample 6): the code's pair is not the (min, max) of that
chunk — its max 0 neither lies in the chunk nor bounds it.  And with two
samples over four columns the empty column 2 outputs `(1, -1)`, which is
neither silence `(0, 0)` nor the previous column's value. -/
theorem buildPeakEnvelope_counterexample :
    ¬ ((((buildPeaks [0, 0, 0, 0, 0, 0, 1] 3).getD 2 (0, 0)).2 ∈
          ceilChunk [0, 0, 0, 0, 0, 0, 1] 3 2)
        ∧ ∀ x ∈ ceilChunk [0, 0, 0, 0, 0, 0, 1] 3 2,
            x ≤ ((buildPeaks [0, 0, 0, 0, 0, 0, 1] 3).getD 2 (0, 0)).2)
    ∧ (buildPeaks [1, 1] 4).getD 2 (0, 0) ≠ (0, 0)
    ∧ (buildPeaks [1, 1] 4).getD 2 (0, 0) ≠ (buildPeaks [1, 1] 4).getD 1 (0, 0) := by
  decide

/-! ## Parser robustness (C9, C10) -/

theorem lineEntries_nil_of_no_ts (bad : List Char) (h : (lrcScan bad).1 = []) :
    lineEntries bad = [] := by
  unfold lineEntries
  by_cases h0 : jsTrim bad = []
  · rw [if_pos h0]
  · rw [if_neg h0]
    simp [h]

theorem lineEntries_nil_of_empty_text (bad : List Char)
    (h : jsTrim (lrcScan bad).2 = []) : lineEntries bad = [] := by
  unfold lineEntries
  by_cases h0 : jsTrim bad = []
  · rw [if_pos h0]
  · rw [if_neg h0]
    simp [h]

theorem parseLRCLines_skip (pre post : List (List Char)) (bad : List Char)
    (h : lineEntries bad = []) :
    parseLRCLines (pre ++ bad :: post) = parseLRCLines (pre ++ post) := by
  unfold parseLRCLines
  rw [List.flatMap_append, List.flatMap_cons, h, List.flatMap_append]
  simp

theorem mem_parseLRCLines (lines : List (List Char)) (L : List Char)
    (hL : L ∈ lines) (e : LyricLine) (he : e ∈ lineEntries L) :
    e ∈ parseLRCLines lines := by
  unfold parseLRCLines
  rw [(jsSortBy_perm _ _).mem_iff]
  exact List.mem_flatMap.mpr ⟨L, hL, he⟩

theorem splitLinesGo_append (l : List Char) (hnl : '\n' ∉ l) :
    ∀ (acc rest : List Char),
      splitLinesGo acc (l ++ rest) = splitLinesGo (l.reverse ++ acc) rest := by
  induction l with
  | nil => intro acc rest; simp
  | cons c l ih =>
    intro acc rest
    have hc : c ≠ '\n' := by
      intro h
      exact hnl (by simp [h])
    simp only [List.cons_append, splitLinesGo, if_neg hc]
    have h2 := ih (by intro h; exact hnl (by simp [h])) (c :: acc) rest
    simpa [List.append_eq, List.reverse_cons, List.append_assoc] using h2

theorem stripCR_reverse (l : List Char) (h : l.getLast? ≠ some '\r') :
    stripCR l.reverse = l.reverse := by
  cases hrev : l.reverse with
  | nil => rfl
  | cons c t =>
    have hhd : l.getLast? = some c := by
      rw [← List.head?_reverse, hrev]
      rfl
    have hc : c ≠ '\r' := by
      intro hcon
      rw [hcon] at hhd
      exact h hhd
    simp [stripCR, hc]

theorem splitLines_joinLines (lines : List (List Char)) (hne : lines ≠ [])
    (hok : ∀ l ∈ lines, '\n' ∉ l ∧ l.getLast? ≠ some '\r') :
    splitLinesGo [] (joinLines lines) = lines := by
  induction lines with
  | nil => exact absurd rfl hne
  | cons l rest ih =>
    cases rest with
    | nil =>
      have h := (hok l (by simp)).1
      rw [show joinLines [l] = l ++ [] by simp [joinLines], splitLinesGo_append l h]
      simp [splitLinesGo]
    | cons l2 rest2 =>
      have hj : joinLines (l :: l2 :: rest2) = l ++ '\n' :: joinLines (l2 :: rest2) := rfl
      rw [hj, splitLinesGo_append l (hok l (by simp)).1]
      have hsplit : splitLinesGo (l.reverse ++ []) ('\n' :: joinLines (l2 :: rest2)) =
          (stripCR (l.reverse ++ [])).reverse :: splitLinesGo [] (joinLines (l2 :: rest2)) := by
        simp [splitLinesGo]
      rw [hsplit, ih (by simp) (fun x hx => hok x (by simp [hx]))]
      rw [List.append_nil, stripCR_reverse l (hok l (by simp)).2]
      simp

theorem parseLRC_mk (cs : List Char) :
    parseLRC (String.mk cs) = parseLRCLines (splitLinesGo [] cs) := by
  by_cases h : cs = []
  · subst h
    decide
  · have hne : String.mk cs ≠ "" := by
      intro hcon
      exact h (by simpa using congrArg String.data hcon)
    rw [parseLRC, if_neg hne]

/-- Removing a line that contributes no entries leaves the whole parse
unchanged (the other lines must themselves be newline-free and not end in a
carriage return, so that joining and re-splitting is the identity). -/
theorem parseLRC_remove_nilLine (pre post : List (List Char)) (bad : List Char)
    (hok : ∀ l ∈ pre ++ bad :: post, '\n' ∉ l ∧ l.getLast? ≠ some '\r')
    (hnil : lineEntries bad = []) :
    parseLRC (String.mk (joinLines (pre ++ bad :: post))) =
      parseLRC (String.mk (joinLines (pre ++ post))) := by
  rw [parseLRC_mk, parseLRC_mk,
    splitLines_joinLines (pre ++ bad :: post) (by simp) hok,
    parseLRCLines_skip pre post bad hnil]
  cases hpp : pre ++ post with
  | nil => rfl
  | cons x xs =>
    rw [splitLines_joinLines (x :: xs) (by simp) ?_]
    intro y hy
    rw [← hpp] at hy
    refine hok y ?_
    rcases List.mem_append.mp hy with h | h
    · exact List.mem_append.mpr (Or.inl h)
    · exact List.mem_append.mpr (Or.inr (List.mem_cons_of_mem bad h))

/-- C9: the parse is a total function of the input lines; a line on which the
timestamp regex finds no match is skipped locally — removing it leaves the
parse unchanged — and every entry of every other line still reaches the
output. -/
theorem parseLRC_skips_malformed (pre post : List (List Char)) (bad : List Char)
    (hok : ∀ l ∈ pre ++ bad :: post, '\n' ∉ l ∧ l.getLast? ≠ some '\r')
    (hbad : (lrcScan bad).1 = []) :
    parseLRC (String.mk (joinLines (pre ++ bad :: post))) =
      parseLRC (String.mk (joinLines (pre ++ post)))
    ∧ ∀ L ∈ pre ++ post, ∀ e ∈ lineEntries L,
        e ∈ parseLRC (String.mk (joinLines (pre ++ post))) := by
  constructor
  · exact parseLRC_remove_nilLine pre post bad hok (lineEntries_nil_of_no_ts bad hbad)
  · intro L hL e he
    have hne : pre ++ post ≠ [] := by
      intro hcon
      rw [hcon] at hL
      simp at hL
    have hok2 : ∀ l ∈ pre ++ post, '\n' ∉ l ∧ l.getLast? ≠ some '\r' := by
      intro y hy
      refine hok y ?_
      rcases List.mem_append.mp hy with h | h
      · exact List.mem_append.mpr (Or.inl h)
      · exact List.mem_append.mpr (Or.inr (List.mem_cons_of_mem bad h))
    rw [parseLRC_mk, splitLines_joinLines (pre ++ post) hne hok2]
    exact mem_parseLRCLines (pre ++ post) L hL e he

/-- C9 witness: dropping the malformed middle line `"[bad"` does not change
the parse of its two well-formed neighbours. -/
theorem parseLRC_skips_malformed_witness :
    parseLRC (String.mk (joinLines
        (["[00:01.00] a".data] ++ "[bad".data :: ["[00:02.00] b".data]))) =
      parseLRC (String.mk (joinLines
        (["[00:01.00] a".data] ++ ["[00:02.00] b".data]))) :=
  (parseLRC_skips_malformed ["[00:01.00] a".data] ["[00:02.00] b".data]
    "[bad".data (by decide) (by decide)).1

/-- C10: a line with timestamps but whitespace-only residual text emits no
entries at all, and removing it leaves the whole parse unchanged. -/
theorem parseLRC_drops_timestampOnly (pre post : List (List Char))
    (bad : List Char)
    (hok : ∀ l ∈ pre ++ bad :: post, '\n' ∉ l ∧ l.getLast? ≠ some '\r')
    (_hts : (lrcScan bad).1 ≠ [])
    (hres : jsTrim (lrcScan bad).2 = []) :
    lineEntries bad = []
    ∧ parseLRC (String.mk (joinLines (pre ++ bad :: post))) =
        parseLRC (String.mk (joinLines (pre ++ post))) := by
  have hnil := lineEntries_nil_of_empty_text bad hres
  exact ⟨hnil, parseLRC_remove_nilLine pre post bad hok hnil⟩

/-- C10 witness: the timestamp-only line `"[00:05.00]  "` (one valid
timestamp, whitespace residual) contributes nothing. -/
theorem parseLRC_drops_timestampOnly_witness :
    lineEntries "[00:05.00]  ".data = [] :=
  (parseLRC_drops_timestampOnly ["[00:01.00] a".data] ["[00:02.00] b".data]
    "[00:05.00]  ".data (by decide) (by decide) (by decide)).1
